import Mathlib

/-!
Verification of the pack-files utility (src/main.go): a shallow embedding of
its extension normalization, directory-walk filtering, tree rendering,
content aggregation and token counting, with theorems checking the stated
properties of each component.

Strings are modelled as Lean String values and manipulated through their
underlying character lists. Go standard-library helpers used by the source
(strings.TrimSpace, strings.EqualFold, strings.HasPrefix, strings.Split,
strings.Repeat, strings.FieldsFunc, filepath.Ext, filepath.Base,
filepath.Rel, filepath.Join, filepath.Walk) are modelled explicitly below;
each model notes its scope.
-/

/-- Newline, as written by fmt.Fprintln. -/
def nl : String := "\n"

/-- The path separator string (filepath.Separator on linux). -/
def slashStr : String := "/"

/-- The path separator character. -/
def slashCh : Char := '/'

/-- The dot string used for extension normalization and the current directory. -/
def dotStr : String := "."

/-- The dot character. -/
def dotCh : Char := '.'

/-- Model of Go unicode.IsSpace: the Unicode White_Space code points.
This is the exact White_Space set (ASCII controls 9-13, space, NEL, NBSP,
Ogham space mark, the U+2000 block, line and paragraph separators, narrow
no-break space, medium mathematical space, ideographic space). -/
def goIsSpace (c : Char) : Bool :=
  let n := c.toNat
  (9 ≤ n && n ≤ 13) || n == 32 || n == 133 || n == 160 ||
  n == 5760 || (8192 ≤ n && n ≤ 8202) || n == 8232 || n == 8233 ||
  n == 8239 || n == 8287 || n == 12288

/-- Model of Go unicode.IsPunct restricted to the ASCII range, which it
covers exactly (the ASCII characters of Unicode category P). Non-ASCII
punctuation tables of the Go runtime are outside the embedding; every claim
about the tokenizer is relative to this delimiter predicate. -/
def goIsPunct (c : Char) : Bool :=
  let n := c.toNat
  (33 ≤ n && n ≤ 35) || (37 ≤ n && n ≤ 42) || (44 ≤ n && n ≤ 47) ||
  n == 58 || n == 59 || n == 63 || n == 64 ||
  (91 ≤ n && n ≤ 93) || n == 95 || n == 123 || n == 125

/-- Drop leading and trailing characters satisfying goIsSpace from a
character list: the character-level core of strings.TrimSpace. -/
def trimChars (l : List Char) : List Char :=
  ((l.dropWhile goIsSpace).reverse.dropWhile goIsSpace).reverse

/-- Model of Go strings.TrimSpace. -/
def goTrimSpace (s : String) : String :=
  String.mk (trimChars s.data)

/-- Model of Go strings.HasPrefix. -/
def goStartsWith (s pre : String) : Bool :=
  List.isPrefixOf pre.data s.data

/-- Model of Go strings.EqualFold: case-insensitive equality. Faithful on
the ASCII range (Char.toLower lowers exactly the ASCII uppercase letters,
matching Go simple case folding there). -/
def goEqualFold (s t : String) : Bool :=
  s.data.map Char.toLower == t.data.map Char.toLower

/-- Lexicographic comparison of character lists: the order Go uses for
string comparison with the less-than operator (byte order of UTF-8 agrees
with code-point order). -/
def charListLe : List Char → List Char → Bool
  | [], _ => true
  | _ :: _, [] => false
  | a :: as, b :: bs => if a < b then true else if b < a then false else charListLe as bs

/-- Split a character list at every separator character: the core of
Go strings.Split with the one-character separator "/". The result is
always nonempty and concatenating it with separators restores the input. -/
def splitSlash : List Char → List (List Char)
  | [] => [[]]
  | c :: cs =>
    match splitSlash cs with
    | [] => [[]]
    | h :: t => if c = slashCh then [] :: h :: t else (c :: h) :: t

/-- Join strings with a separator between consecutive elements: models
both filepath.Join on clean components and the text assembled from
consecutive write calls. -/
def sepJoin (sep : String) : List String → String
  | [] => ""
  | [x] => x
  | x :: y :: t => x ++ sep ++ sepJoin sep (y :: t)

/-- Model of Go strings.Repeat. -/
def repeatStr (s : String) : Nat → String
  | 0 => ""
  | n + 1 => s ++ repeatStr s n

/-- Model of Go filepath.Base on slash-separated paths: empty input gives
the dot, trailing separators are dropped, and the last component remains;
a path of only separators gives the separator. -/
def goBase (path : String) : String :=
  if path = "" then dotStr
  else
    let p := (path.data.reverse.dropWhile (fun c => c == slashCh)).reverse
    if p = [] then slashStr
    else String.mk ((splitSlash p).getLastD [])

/-- Model of Go filepath.Rel for the paths this program produces: a walk
target equal to the base yields the dot, a target under the base loses the
base and its separator, and any other target is returned unchanged (the
general dot-dot construction of filepath.Rel is never exercised by paths
filepath.Walk hands to the callback). -/
def goRel (base targ : String) : String :=
  if targ = base then dotStr
  else if List.isPrefixOf (base ++ slashStr).data targ.data then
    String.mk (targ.data.drop (base.data.length + 1))
  else targ

/-- Scan a reversed path for the extension: seen holds the characters
already passed, in original order. Models the backward loop of
filepath.Ext, stopping at a separator. -/
def goExtAux (seen : List Char) : List Char → String
  | [] => ""
  | c :: cs =>
    if c = slashCh then ""
    else if c = dotCh then String.mk (dotCh :: seen)
    else goExtAux (c :: seen) cs

/-- Model of Go filepath.Ext: the suffix of the final path element starting
at its final dot, or empty when the final element has no dot. -/
def goExt (path : String) : String :=
  goExtAux [] path.data.reverse

/-- Record of one matched file, as the walk builds it (src/main.go
FileInfo). The Children field of the source structure is never assigned or
read anywhere in the program and is omitted. -/
structure FileInfo where
  Path : String
  IsDir : Bool
  Size : Int
  Content : String
deriving DecidableEq

/-- Accumulated statistics (src/main.go Statistics). The two float64
averages are modelled as exact rationals. -/
structure Statistics where
  TotalFiles : Nat
  TotalSize : Int
  AverageFileSize : ℚ
  TotalTokens : Nat
  AverageTokens : ℚ
deriving DecidableEq

/-- Model of src/main.go normalizeExtensions: trim each raw token, drop the
ones that trim to nothing, and put a dot in front of any survivor that does
not already start with one, keeping input order. -/
def normalizeExtensions : List String → List String
  | [] => []
  | ext :: rest =>
    let e := goTrimSpace ext
    if e = "" then normalizeExtensions rest
    else if goStartsWith e dotStr then e :: normalizeExtensions rest
    else (dotStr ++ e) :: normalizeExtensions rest

/-- Declarative form of the normalization contract, following the words of
the spec: the trimmed nonempty tokens in input order, each dot-prefixed. -/
def normalizeExtensionsSpec (exts : List String) : List String :=
  ((exts.map goTrimSpace).filter (fun e => !(e == ""))).map
    (fun e => if goStartsWith e dotStr then e else dotStr ++ e)

/-- Inclusion decision of the walk callback (src/main.go lines 146-164):
included when the include set is empty or the extension matches one of its
entries case-insensitively, then overridden to excluded when the extension
matches any exclude entry case-insensitively. -/
def fileIncluded (includeExts excludeExts : List String) (ext : String) : Bool :=
  let inc :=
    if includeExts.isEmpty then true
    else includeExts.any (fun i => goEqualFold ext i)
  if excludeExts.any (fun x => goEqualFold ext x) then false else inc

/-- The record appended for an included file (src/main.go lines 174-179). -/
def mkRecord (f : FileInfo) : FileInfo :=
  { Path := f.Path, IsDir := false, Size := f.Size, Content := f.Content }

/-- Error text for a failed content read (src/main.go line 171); the
underlying operating-system error appended by the source is abstracted
away, the offending path is kept. -/
def readErrMsg (path : String) : String :=
  "unable to read file " ++ path

/-- One visit delivered by filepath.Walk to the callback: either the walk
primitive itself reports an error for a path, or it presents an entry whose
later content read succeeds or fails (readErr). -/
inductive VisitEvent where
  | failed (path : String)
  | entry (f : FileInfo) (readErr : Bool)
deriving DecidableEq

/-- Model of src/main.go walkDirectory over a sequence of visit events:
the callback filters non-directory entries by extension, reads and records
the included ones, and any error (a failed visit, or a failed read of an
included file) aborts the walk at once, as returning a non-nil error from
the callback stops filepath.Walk. -/
def walkDirectory (includeExts excludeExts : List String) (acc : List FileInfo) :
    List VisitEvent → Except String (List FileInfo)
  | [] => Except.ok acc
  | VisitEvent.failed p :: _ => Except.error p
  | VisitEvent.entry f readErr :: rest =>
    if f.IsDir then walkDirectory includeExts excludeExts acc rest
    else if fileIncluded includeExts excludeExts (goExt f.Path) then
      if readErr then Except.error (readErrMsg f.Path)
      else walkDirectory includeExts excludeExts (acc ++ [mkRecord f]) rest
    else walkDirectory includeExts excludeExts acc rest

/-- The path of the first visit event that makes the walk fail: a failed
visit, or an entry that passes the filter but whose read fails. -/
def firstOffender (includeExts excludeExts : List String) :
    List VisitEvent → Option String
  | [] => none
  | VisitEvent.failed p :: _ => some p
  | VisitEvent.entry f readErr :: rest =>
    if !f.IsDir && fileIncluded includeExts excludeExts (goExt f.Path) && readErr
    then some f.Path
    else firstOffender includeExts excludeExts rest

/-- One rendered tree node: a directory branch or a file leaf, with the
cumulative relative path it stands for, its zero-based depth and its last
path component. -/
structure TreeEntry where
  isDir : Bool
  path : String
  depth : Nat
  name : String
deriving DecidableEq

/-- The text of one tree node line, exactly as src/main.go lines 245-250
format it: four spaces, the vertical-bar prefix repeated once per depth
level, the branch glyph, the component, and a trailing slash on
directories. -/
def entryLine (e : TreeEntry) : String :=
  "    " ++ repeatStr "│   " e.depth ++ "├── " ++ e.name ++
    (if e.isDir then slashStr else "")

/-- The cumulative directory paths a component list contributes: one join
per proper prefix of the components, the final (file) component excluded.
pre holds the components already consumed. -/
def cumDirs (pre : List String) : List String → List String
  | [] => []
  | c :: rest =>
    if rest.isEmpty then []
    else sepJoin slashStr (pre ++ [c]) :: cumDirs (pre ++ [c]) rest

/-- The inner loop of src/main.go generateStructureFile (lines 234-252)
over the components of one file: at each component the cumulative path is
joined; a non-final component is a directory, emitted and marked seen
unless already seen; the final component is the file, always emitted. -/
def emitComps (seen : List String) (pre : List String) :
    List String → List String × List TreeEntry
  | [] => (seen, [])
  | c :: rest =>
    let cur := sepJoin slashStr (pre ++ [c])
    if rest.isEmpty then
      (seen, [⟨false, cur, pre.length, c⟩])
    else if seen.contains cur then
      emitComps seen (pre ++ [c]) rest
    else
      let r := emitComps (seen ++ [cur]) (pre ++ [c]) rest
      (r.1, ⟨true, cur, pre.length, c⟩ :: r.2)

/-- The components of one file path relative to the root, as the source
computes them: relative path, split at the separator. -/
def relComps (rootPath p : String) : List String :=
  (splitSlash (goRel rootPath p).data).map String.mk

/-- The outer loop of src/main.go generateStructureFile (lines 223-253):
emit every file in order, threading the seen set of directory paths. -/
def emitFiles (rootPath : String) (seen : List String) :
    List String → List String × List TreeEntry
  | [] => (seen, [])
  | p :: ps =>
    let r1 := emitComps seen [] (relComps rootPath p)
    let r2 := emitFiles rootPath r1.1 ps
    (r2.1, r1.2 ++ r2.2)

/-- Insert one record into a path-sorted record list, keeping it sorted. -/
def insertByPath (f : FileInfo) : List FileInfo → List FileInfo
  | [] => [f]
  | g :: gs =>
    if charListLe f.Path.data g.Path.data then f :: g :: gs
    else g :: insertByPath f gs

/-- Model of the in-place sort.Slice call of src/main.go lines 205-207: the
record list rearranged into ascending path order. The source sort is an
unspecified comparison sort over the less-than on paths; insertion sort is
one such sort and is used as its executable model. -/
def sortFiles : List FileInfo → List FileInfo
  | [] => []
  | f :: fs => insertByPath f (sortFiles fs)

/-- The root path the structure generator renders from (src/main.go lines
210-217): the configured root, or the working directory when the root is
the dot. -/
def rootOf (cwd rootDir : String) : String :=
  if rootDir = dotStr then cwd else rootDir

/-- Model of src/main.go generateStructureFile: sorts the record list by
path, renders the title line, the root line and one line per emitted tree
node, and returns both the lines and the record list as the caller now
sees it (sort.Slice reorders the slice the caller passed in). -/
def generateStructureFile (cwd rootDir : String) (files : List FileInfo) :
    List String × List FileInfo :=
  let sorted := sortFiles files
  let rp := rootOf cwd rootDir
  let es := (emitFiles rp [] (sorted.map (fun f => f.Path))).2
  ("Directory structure:" :: ("└── " ++ goBase rp ++ slashStr) ::
     es.map entryLine,
   sorted)

/-- The lines of the structure file. -/
def structureLines (cwd rootDir : String) (files : List FileInfo) : List String :=
  (generateStructureFile cwd rootDir files).1

/-- The emitted tree nodes of the structure file. -/
def structureEntries (cwd rootDir : String) (files : List FileInfo) : List TreeEntry :=
  (emitFiles (rootOf cwd rootDir) []
    ((sortFiles files).map (fun f => f.Path))).2

/-- The full text of a line sequence, each line terminated by a newline,
matching consecutive Fprintln writes. -/
def linesText : List String → String
  | [] => ""
  | l :: ls => l ++ nl ++ linesText ls

/-- The byte content of the structure file. -/
def structureText (cwd rootDir : String) (files : List FileInfo) : String :=
  linesText (structureLines cwd rootDir files)

/-- The directory paths of the emitted tree nodes, in emission order. -/
def dirPathsOf (es : List TreeEntry) : List String :=
  (es.filter (fun e => e.isDir)).map (fun e => e.path)

/-- A delimiter for the tokenizer: whitespace or punctuation (src/main.go
line 308). -/
def isSepCh (c : Char) : Bool :=
  goIsSpace c || goIsPunct c

/-- Model of Go strings.FieldsFunc at the character level: cur collects the
characters of the field under construction, in reverse; a delimiter closes
the field when it is nonempty, and the end of input closes a last nonempty
field. Empty fields are never produced. -/
def fieldsAux (f : Char → Bool) (cur : List Char) : List Char → List (List Char)
  | [] => if cur.isEmpty then [] else [cur.reverse]
  | c :: cs =>
    if f c then
      if cur.isEmpty then fieldsAux f [] cs
      else cur.reverse :: fieldsAux f [] cs
    else fieldsAux f (c :: cur) cs

/-- Model of Go strings.FieldsFunc. -/
def goFieldsFunc (f : Char → Bool) (s : String) : List String :=
  (fieldsAux f [] s.data).map String.mk

/-- Model of src/main.go countTokens: split at whitespace and punctuation,
keep the nonempty words, count them. The source filters empty words a
second time after FieldsFunc; the filter is kept. -/
def countTokens (text : String) : Nat :=
  ((goFieldsFunc isSepCh text).filter (fun w => !(w == ""))).length

/-- Number of maximal runs of non-delimiter characters in a character list:
inRun records whether the previous character belonged to a run. -/
def runsAux (f : Char → Bool) (inRun : Bool) : List Char → Nat
  | [] => 0
  | c :: cs =>
    if f c then runsAux f false cs
    else if inRun then runsAux f true cs
    else 1 + runsAux f true cs

/-- Declarative token count, following the words of the spec: the number of
maximal runs of characters that are neither whitespace nor punctuation. -/
def tokenRuns (s : String) : Nat :=
  runsAux isSepCh false s.data

/-- The 48-character separator line of the content file (src/main.go lines
280 and 282). -/
def sepLine : String :=
  String.mk (List.replicate 48 ('='))

/-- Header line for the file at one-based position n (src/main.go line
281). -/
def fileHeader (n : Nat) (path : String) : String :=
  "File " ++ toString n ++ ": " ++ path

/-- The loop of src/main.go generateContentFile (lines 273-293): at
zero-based index i it writes a blank separator line before every entry but
the first, the separator and header lines, and the content, while adding
the size and token count of the record to the running totals. Returns the
text written and the final size and token totals. -/
def contentLoop : Nat → Int → Nat → List FileInfo → String × Int × Nat
  | _, size, tokens, [] => ("", size, tokens)
  | i, size, tokens, f :: fs =>
    let r := contentLoop (i + 1) (size + f.Size) (tokens + countTokens f.Content) fs
    ((if 0 < i then nl else "") ++
       sepLine ++ nl ++ fileHeader (i + 1) f.Path ++ nl ++ sepLine ++ nl ++
       f.Content ++ nl ++ r.1,
     r.2)

/-- Model of src/main.go generateContentFile: the concatenated content text
and the statistics, with both averages left at zero when the file count is
zero and set to the exact quotients otherwise (lines 296-299). -/
def generateContentFile (files : List FileInfo) : String × Statistics :=
  let r := contentLoop 0 0 0 files
  if 0 < files.length then
    (r.1,
     { TotalFiles := files.length, TotalSize := r.2.1, TotalTokens := r.2.2,
       AverageFileSize := (r.2.1 : ℚ) / (files.length : ℚ),
       AverageTokens := (r.2.2 : ℚ) / (files.length : ℚ) })
  else
    (r.1,
     { TotalFiles := files.length, TotalSize := r.2.1, TotalTokens := r.2.2,
       AverageFileSize := 0, AverageTokens := 0 })

/-- The block of text one record contributes to the content file, n its
one-based index: separator line, header line, separator line, raw content,
each write ending in a newline. -/
def contentBlock (n : Nat) (f : FileInfo) : String :=
  sepLine ++ nl ++ fileHeader n f.Path ++ nl ++ sepLine ++ nl ++ f.Content ++ nl

/-- The stage sequence of src/main.go main (lines 66-77): the structure
generator runs first and reorders the record list in place; the content
generator then runs on the list as the structure generator left it.
Returns the structure lines, the content text and the statistics. -/
def mainPipeline (cwd rootDir : String) (files : List FileInfo) :
    List String × String × Statistics :=
  let r := generateStructureFile cwd rootDir files
  let c := generateContentFile r.2
  (r.1, c.1, c.2)

/-- The text the content loop writes from one-based index n on: every block
is preceded by the blank separator line, because a block before it has
already been written. -/
def contentGlue (n : Nat) : List FileInfo → String
  | [] => ""
  | f :: fs => nl ++ contentBlock n f ++ contentGlue (n + 1) fs

/-! Helper lemmas about strings and character lists. -/

/-- String equality is equality of the underlying character lists. -/
theorem strEq_iff_data {s t : String} : s = t ↔ s.data = t.data :=
  ⟨fun h => h ▸ rfl, String.ext⟩

/-- Appending strings appends the underlying character lists. -/
theorem strData_append (s t : String) : (s ++ t).data = s.data ++ t.data :=
  String.data_append s t

/-- String append is associative. -/
theorem strAppend_assoc (a b c : String) : (a ++ b) ++ c = a ++ (b ++ c) := by
  apply String.ext
  simp [strData_append]

/-- The empty string is a left identity for append. -/
theorem strEmpty_append (s : String) : "" ++ s = s := by
  apply String.ext
  simp [strData_append]

/-- The empty string is a right identity for append. -/
theorem strAppend_empty (s : String) : s ++ "" = s := by
  apply String.ext
  simp [strData_append]

/-- Dropping while a predicate holds is idempotent. -/
theorem dropWhile_idem (p : Char → Bool) (l : List Char) :
    List.dropWhile p (List.dropWhile p l) = List.dropWhile p l := by
  induction l with
  | nil => rfl
  | cons c cs ih =>
    by_cases h : p c
    · simp [List.dropWhile_cons, h, ih]
    · simp [List.dropWhile_cons, h]

/-- The head of a dropWhile result does not satisfy the predicate. -/
theorem head_dropWhile_false (p : Char → Bool) (l : List Char) (c : Char)
    (t : List Char) (h : List.dropWhile p l = c :: t) : p c = false := by
  induction l with
  | nil => simp at h
  | cons a as ih =>
    by_cases hp : p a
    · rw [List.dropWhile_cons, if_pos hp] at h
      exact ih h
    · rw [List.dropWhile_cons, if_neg hp] at h
      cases h
      simpa using hp

/-- A list fixed by dropWhile has a head that fails the predicate. -/
theorem dropWhile_fixed_head (p : Char → Bool) (c : Char) (t : List Char)
    (h : List.dropWhile p (c :: t) = c :: t) : p c = false := by
  by_cases hp : p c
  · rw [List.dropWhile_cons, if_pos hp] at h
    have := (List.dropWhile_sublist (l := t) p).length_le
    have h2 := congrArg List.length h
    simp at h2
    omega
  · simpa using hp

/-- Trimming is idempotent on character lists. -/
theorem trimChars_idem (l : List Char) : trimChars (trimChars l) = trimChars l := by
  unfold trimChars
  set p := goIsSpace with hp
  set y := (List.dropWhile p l).reverse with hy
  set z := List.dropWhile p y with hz
  have hrev : z.reverse.reverse = z := by simp
  have hstep1 : List.dropWhile p z.reverse = z.reverse := by
    cases hzr : z.reverse with
    | nil => simp
    | cons c t =>
      have hzy : z <:+ y := List.dropWhile_suffix p
      have hpre : z.reverse <+: y.reverse := by
        exact (List.reverse_prefix).mpr hzy
      have hyrev : y.reverse = List.dropWhile p l := by simp [hy]
      obtain ⟨r, hr⟩ := hpre
      rw [hzr, hyrev] at hr
      have hc : p c = false := by
        apply head_dropWhile_false p l c (t ++ r)
        rw [← hr]
        rfl
      rw [List.dropWhile_cons, if_neg (by simp [hc])]
  rw [hstep1, hrev, hz, dropWhile_idem]

/-- A trimmed character list is fixed under a further dropWhile from the
front of its reverse. -/
theorem trim_fixed_rev (l : List Char) (h : trimChars l = l) :
    List.dropWhile goIsSpace l.reverse = l.reverse := by
  have h2 : (List.dropWhile goIsSpace ((List.dropWhile goIsSpace l).reverse)) = l.reverse := by
    have := congrArg List.reverse h
    unfold trimChars at this
    simpa using this
  calc List.dropWhile goIsSpace l.reverse
      = List.dropWhile goIsSpace
          (List.dropWhile goIsSpace ((List.dropWhile goIsSpace l).reverse)) := by rw [h2]
    _ = List.dropWhile goIsSpace ((List.dropWhile goIsSpace l).reverse) := by
          rw [dropWhile_idem]
    _ = l.reverse := h2

/-- Putting a non-space character in front of a trimmed nonempty list keeps
it trimmed. -/
theorem trimChars_cons_fixed (c : Char) (l : List Char)
    (hc : goIsSpace c = false) (h : trimChars l = l) :
    trimChars (c :: l) = c :: l := by
  have hfront : List.dropWhile goIsSpace (c :: l) = c :: l := by
    rw [List.dropWhile_cons, if_neg (by simp [hc])]
  have hback : List.dropWhile goIsSpace (l.reverse ++ [c]) = l.reverse ++ [c] := by
    cases hlr : l.reverse with
    | nil =>
      simp [List.dropWhile_cons, hc]
    | cons d t =>
      have hd : goIsSpace d = false := by
        have := trim_fixed_rev l h
        rw [hlr] at this
        exact dropWhile_fixed_head goIsSpace d t this
      rw [List.cons_append, List.dropWhile_cons, if_neg (by simp [hd])]
  unfold trimChars
  rw [hfront]
  have : (c :: l).reverse = l.reverse ++ [c] := by simp
  rw [this, hback]
  simp

/-- Trimming a string twice equals trimming it once. -/
theorem goTrimSpace_idem (s : String) : goTrimSpace (goTrimSpace s) = goTrimSpace s := by
  apply String.ext
  simp [goTrimSpace, trimChars_idem]

/-- C5: normalization returns exactly the input-order subsequence of tokens
that survive trimming, each trimmed and dot-prefixed when needed; every
output entry is nonempty and dot-prefixed, and duplicates are kept. -/
theorem normalizeExtensions_normalizes (exts : List String) :
    normalizeExtensions exts = normalizeExtensionsSpec exts ∧
    ∀ e ∈ normalizeExtensions exts, e ≠ "" ∧ goStartsWith e dotStr = true := by
  constructor
  · induction exts with
    | nil => rfl
    | cons x rest ih =>
      simp only [normalizeExtensions, normalizeExtensionsSpec, List.map_cons,
        List.filter_cons] at ih ⊢
      by_cases h : goTrimSpace x = ""
      · simp [h, ih]
      · by_cases h2 : goStartsWith (goTrimSpace x) dotStr
        · simp [h, h2, ih]
        · simp [h, h2, ih]
  · intro e he
    induction exts with
    | nil => simp [normalizeExtensions] at he
    | cons x rest ih =>
      by_cases h : goTrimSpace x = ""
      · rw [normalizeExtensions, if_pos h] at he
        exact ih he
      · by_cases h2 : goStartsWith (goTrimSpace x) dotStr = true
        · rw [normalizeExtensions, if_neg h, if_pos h2] at he
          cases he with
          | head => exact ⟨h, h2⟩
          | tail _ hm => exact ih hm
        · rw [normalizeExtensions, if_neg h, if_neg h2] at he
          cases he with
          | head =>
            constructor
            · intro hc
              rw [strEq_iff_data] at hc
              simp [strData_append, dotStr] at hc
            · simp [goStartsWith, strData_append, dotStr, List.isPrefixOf]
          | tail _ hm => exact ih hm

/-- The character list of the dot string. -/
theorem dotStr_data : dotStr.data = [dotCh] := rfl

/-- The dot is not whitespace. -/
theorem goIsSpace_dotCh : goIsSpace dotCh = false := by decide

/-- Data of a dot-prefixed string. -/
theorem dot_append_data (s : String) : (dotStr ++ s).data = dotCh :: s.data := by
  rw [strData_append, dotStr_data]
  rfl

/-- A dot-prefixed string is nonempty. -/
theorem dot_append_ne_empty (s : String) : dotStr ++ s ≠ "" := by
  intro hc
  rw [strEq_iff_data, dot_append_data] at hc
  simp at hc

/-- A dot-prefixed string starts with the dot. -/
theorem dot_append_starts (s : String) : goStartsWith (dotStr ++ s) dotStr = true := by
  simp [goStartsWith, dot_append_data, dotStr_data, List.isPrefixOf]

/-- Trimming fixes the output of a trim. -/
theorem goTrimSpace_data_idem (s : String) :
    trimChars (goTrimSpace s).data = (goTrimSpace s).data :=
  congrArg String.data (goTrimSpace_idem s)

/-- C6: normalization is idempotent: normalizing an already-normalized
extension list returns it unchanged. -/
theorem normalizeExtensions_idem (exts : List String) :
    normalizeExtensions (normalizeExtensions exts) = normalizeExtensions exts := by
  induction exts with
  | nil => rfl
  | cons x rest ih =>
    simp only [normalizeExtensions]
    by_cases h : goTrimSpace x = ""
    · simp only [if_pos h]
      exact ih
    · by_cases h2 : goStartsWith (goTrimSpace x) dotStr = true
      · simp only [if_neg h, if_pos h2]
        simp only [normalizeExtensions]
        rw [goTrimSpace_idem]
        simp only [if_neg h, if_pos h2]
        rw [ih]
      · simp only [if_neg h, if_neg h2]
        simp only [normalizeExtensions]
        have hdata : goTrimSpace (dotStr ++ goTrimSpace x) = dotStr ++ goTrimSpace x := by
          apply String.ext
          show trimChars ((dotStr ++ goTrimSpace x).data) = (dotStr ++ goTrimSpace x).data
          rw [dot_append_data]
          exact trimChars_cons_fixed dotCh (goTrimSpace x).data goIsSpace_dotCh
            (goTrimSpace_data_idem x)
        rw [hdata]
        rw [if_neg (dot_append_ne_empty (goTrimSpace x)),
          if_pos (dot_append_starts (goTrimSpace x))]
        rw [ih]

/-- The number of fields produced so far: a nonempty current field adds one
to the runs remaining in the rest of the input. -/
theorem fieldsAux_length (f : Char → Bool) (l : List Char) :
    ∀ cur : List Char, (fieldsAux f cur l).length =
      runsAux f (!cur.isEmpty) l + (if cur.isEmpty then 0 else 1) := by
  induction l with
  | nil =>
    intro cur
    cases cur <;> simp [fieldsAux, runsAux]
  | cons c cs ih =>
    intro cur
    by_cases hf : f c
    · cases cur with
      | nil => simp [fieldsAux, runsAux, hf, ih]
      | cons a as => simp [fieldsAux, runsAux, hf, ih]
    · cases cur with
      | nil => simp [fieldsAux, runsAux, hf, ih, Nat.add_comm]
      | cons a as => simp [fieldsAux, runsAux, hf, ih]

/-- Every field FieldsFunc produces is nonempty. -/
theorem fieldsAux_ne_nil (f : Char → Bool) (l : List Char) :
    ∀ cur w, w ∈ fieldsAux f cur l → w ≠ [] := by
  induction l with
  | nil =>
    intro cur w hw
    cases cur with
    | nil => simp [fieldsAux] at hw
    | cons a as =>
      simp [fieldsAux] at hw
      subst hw
      simp
  | cons c cs ih =>
    intro cur w hw
    by_cases hf : f c
    · cases cur with
      | nil =>
        simp [fieldsAux, hf] at hw
        exact ih [] w hw
      | cons a as =>
        simp [fieldsAux, hf] at hw
        rcases hw with hw | hw
        · subst hw
          simp
        · exact ih [] w hw
    · simp [fieldsAux, hf] at hw
      exact ih (c :: cur) w hw

/-- Fields of a string are nonempty strings. -/
theorem goFieldsFunc_ne_empty (f : Char → Bool) (s : String) :
    ∀ w ∈ goFieldsFunc f s, w ≠ "" := by
  intro w hw
  simp only [goFieldsFunc] at hw
  rcases List.mem_map.mp hw with ⟨l, hl, hmk⟩
  have h1 := fieldsAux_ne_nil f s.data [] l hl
  intro hc
  apply h1
  rw [← hmk] at hc
  rw [strEq_iff_data] at hc
  simpa using hc

/-- C4: the token count of a text equals the number of maximal runs of
characters that are neither whitespace nor punctuation (the delimiter
predicate of the source), consecutive delimiters contribute nothing, and
the two sample strings of the spec both count three tokens. -/
theorem countTokens_eq_runs (s : String) :
    countTokens s = tokenRuns s ∧
    countTokens ("a, b.  c") = 3 ∧ countTokens ("a b c") = 3 := by
  refine ⟨?_, by decide, by decide⟩
  unfold countTokens tokenRuns
  have hall : ∀ w ∈ goFieldsFunc isSepCh s, (!(w == "")) = true := by
    intro w hw
    simpa using goFieldsFunc_ne_empty isSepCh s w hw
  rw [List.filter_eq_self.mpr hall]
  simp only [goFieldsFunc, List.length_map]
  have := fieldsAux_length isSepCh s.data []
  simpa using this

/-- The totals of the content loop: the final size and token accumulators
are the starting values plus the sums over the records. -/
theorem contentLoop_totals (fs : List FileInfo) :
    ∀ (i : Nat) (s : Int) (t : Nat),
      (contentLoop i s t fs).2.1 = s + (fs.map (fun f => f.Size)).sum ∧
      (contentLoop i s t fs).2.2 = t + (fs.map (fun f => countTokens f.Content)).sum := by
  induction fs with
  | nil => intro i s t; simp [contentLoop]
  | cons f fs ih =>
    intro i s t
    simp only [contentLoop, List.map_cons, List.sum_cons]
    constructor
    · rw [(ih (i + 1) (s + f.Size) (t + countTokens f.Content)).1]
      ring
    · rw [(ih (i + 1) (s + f.Size) (t + countTokens f.Content)).2]
      omega

/-- C2: the statistics of the content stage count the records, sum their
sizes and token counts, and set each average to the exact quotient of its
total by the file count when that count is positive and to zero when the
list is empty. -/
theorem generateContentFile_statistics (files : List FileInfo) :
    (generateContentFile files).2.TotalFiles = files.length ∧
    (generateContentFile files).2.TotalSize = (files.map (fun f => f.Size)).sum ∧
    (generateContentFile files).2.TotalTokens =
      (files.map (fun f => countTokens f.Content)).sum ∧
    (0 < files.length →
      (generateContentFile files).2.AverageFileSize =
        (((files.map (fun f => f.Size)).sum : Int) : ℚ) / (files.length : ℚ) ∧
      (generateContentFile files).2.AverageTokens =
        (((files.map (fun f => countTokens f.Content)).sum : Nat) : ℚ) / (files.length : ℚ)) ∧
    (files.length = 0 →
      (generateContentFile files).2.AverageFileSize = 0 ∧
      (generateContentFile files).2.AverageTokens = 0) := by
  have ht := contentLoop_totals files 0 0 0
  have h1 := ht.1
  have h2 := ht.2
  rw [zero_add] at h1
  rw [zero_add] at h2
  by_cases h : 0 < files.length
  · simp only [generateContentFile, if_pos h]
    refine ⟨by trivial, h1, h2, ?_, ?_⟩
    · intro _
      constructor
      · rw [h1]
      · rw [h2]
    · intro hz
      exact absurd hz (by omega)
  · simp only [generateContentFile, if_neg h]
    exact ⟨by trivial, h1, h2, fun hp => absurd hp h, fun _ => ⟨by trivial, by trivial⟩⟩

/-- The glue text equals a newline followed by the separator-joined blocks,
for a nonempty record list. -/
theorem contentGlue_eq_sepJoin (fs : List FileInfo) :
    ∀ n, fs ≠ [] →
      contentGlue n fs =
        nl ++ sepJoin nl ((List.enumFrom n fs).map (fun p => contentBlock p.1 p.2)) := by
  induction fs with
  | nil => intro n hc; exact absurd rfl hc
  | cons f fs ih =>
    intro n _
    cases fs with
    | nil =>
      show nl ++ contentBlock n f ++ contentGlue (n + 1) [] =
        nl ++ sepJoin nl [contentBlock n f]
      rw [show contentGlue (n + 1) ([] : List FileInfo) = "" from rfl]
      rw [strAppend_empty]
      rfl
    | cons g t =>
      show nl ++ contentBlock n f ++ contentGlue (n + 1) (g :: t) =
        nl ++ sepJoin nl ((List.enumFrom n (f :: g :: t)).map (fun p => contentBlock p.1 p.2))
      rw [ih (n + 1) (by simp)]
      simp only [List.enumFrom_cons, List.map_cons, sepJoin, strAppend_assoc]

/-- The text of the content loop started at a positive index: every record
block is preceded by the blank separator line. -/
theorem contentLoop_text_pos (fs : List FileInfo) :
    ∀ (i : Nat) (s : Int) (t : Nat), 0 < i →
      (contentLoop i s t fs).1 = contentGlue (i + 1) fs := by
  induction fs with
  | nil => intro i s t _; rfl
  | cons f fs ih =>
    intro i s t hi
    simp only [contentLoop, contentGlue, if_pos hi]
    rw [ih (i + 1) (s + f.Size) (t + countTokens f.Content) (by omega)]
    simp only [contentBlock, fileHeader, strAppend_assoc]

/-- C8: the content file is the separator-joined sequence of per-record
blocks in list order, each block a 48-equals separator line, a one-based
header line, another separator line and the raw content; consecutive
blocks are joined by one extra newline (one blank line, as each block ends
with a newline), and nothing precedes the first block. -/
theorem generateContentFile_format (files : List FileInfo) :
    (generateContentFile files).1 =
      sepJoin nl ((List.enumFrom 1 files).map (fun p => contentBlock p.1 p.2)) ∧
    sepLine.data = List.replicate 48 ('=') ∧
    (∀ n f, contentBlock n f =
      sepLine ++ nl ++ ("File " ++ toString n ++ ": " ++ f.Path) ++ nl ++
        sepLine ++ nl ++ f.Content ++ nl) := by
  refine ⟨?_, by decide, fun n f => by simp [contentBlock, fileHeader, strAppend_assoc]⟩
  have hsame : (generateContentFile files).1 = (contentLoop 0 0 0 files).1 := by
    by_cases h : 0 < files.length
    · simp [generateContentFile, if_pos h]
    · simp [generateContentFile, if_neg h]
  rw [hsame]
  cases files with
  | nil => rfl
  | cons f fs =>
    simp only [contentLoop]
    rw [if_neg (by omega : ¬ (0 : Nat) < 0)]
    rw [contentLoop_text_pos fs 1 (0 + f.Size) (0 + countTokens f.Content) (by omega)]
    cases fs with
    | nil =>
      rw [show contentGlue (1 + 1) ([] : List FileInfo) = "" from rfl]
      simp only [List.enumFrom_cons, List.map_cons, List.map_nil, List.enumFrom_nil, sepJoin]
      simp only [contentBlock, fileHeader, strAppend_assoc, Nat.zero_add]
      rw [strEmpty_append, strAppend_empty]
    | cons g t =>
      rw [contentGlue_eq_sepJoin (g :: t) (1 + 1) (by simp)]
      simp only [List.enumFrom_cons, List.map_cons, sepJoin]
      simp only [contentBlock, fileHeader, strAppend_assoc, Nat.zero_add]
      rw [strEmpty_append]

/-- The filter decision as a proposition: included exactly when the include
set is empty or matched, and no exclude entry is matched. -/
theorem fileIncluded_iff (includeExts excludeExts : List String) (ext : String) :
    fileIncluded includeExts excludeExts ext = true ↔
      ((includeExts = [] ∨ ∃ i ∈ includeExts, goEqualFold ext i = true) ∧
       ¬ ∃ x ∈ excludeExts, goEqualFold ext x = true) := by
  unfold fileIncluded
  by_cases hx : excludeExts.any (fun x => goEqualFold ext x) = true
  · rw [if_pos hx]
    simp only [List.any_eq_true] at hx
    constructor
    · intro h
      simp at h
    · rintro ⟨-, hno⟩
      exact absurd (by simpa using hx) hno
  · rw [if_neg hx]
    simp only [List.any_eq_true] at hx
    have hno : ¬ ∃ x ∈ excludeExts, goEqualFold ext x = true := by simpa using hx
    by_cases hinc : includeExts.isEmpty
    · rw [if_pos hinc]
      have he : includeExts = [] := List.isEmpty_iff.mp hinc
      simp [he, hno]
    · rw [if_neg hinc]
      have hne : ¬ includeExts = [] := by simpa [List.isEmpty_iff] using hinc
      simp only [List.any_eq_true]
      constructor
      · intro h
        exact ⟨Or.inr (by simpa using h), hno⟩
      · rintro ⟨hin | hin, -⟩
        · exact absurd hin hne
        · simpa using hin

/-- Records already accumulated survive a successful walk. -/
theorem walkDirectory_acc_sub (includeExts excludeExts : List String) :
    ∀ (events : List VisitEvent) (acc l : List FileInfo),
      walkDirectory includeExts excludeExts acc events = Except.ok l →
      ∀ r ∈ acc, r ∈ l := by
  intro events
  induction events with
  | nil =>
    intro acc l h r hr
    simp only [walkDirectory] at h
    cases h
    exact hr
  | cons e rest ih =>
    intro acc l h r hr
    cases e with
    | failed p => simp [walkDirectory] at h
    | entry g b =>
      by_cases hd : g.IsDir = true
      · simp only [walkDirectory, hd, if_true] at h
        exact ih acc l h r hr
      · by_cases hincl : fileIncluded includeExts excludeExts (goExt g.Path) = true
        · cases b with
          | true => simp [walkDirectory, hd, hincl] at h
          | false =>
            simp only [walkDirectory, hd, hincl] at h
            simp at h
            exact ih (acc ++ [mkRecord g]) l h r (by simp [hr])
        · simp only [walkDirectory, hd, hincl] at h
          simp at h
          exact ih acc l h r hr

/-- An included, readable, non-directory entry of a successful walk
contributes its record to the result. -/
theorem walkDirectory_mem (includeExts excludeExts : List String) :
    ∀ (events : List VisitEvent) (acc l : List FileInfo) (f : FileInfo),
      walkDirectory includeExts excludeExts acc events = Except.ok l →
      VisitEvent.entry f false ∈ events →
      f.IsDir = false →
      fileIncluded includeExts excludeExts (goExt f.Path) = true →
      mkRecord f ∈ l := by
  intro events
  induction events with
  | nil =>
    intro acc l f _ hev
    simp at hev
  | cons e rest ih =>
    intro acc l f h hev hdir hincl
    rcases List.mem_cons.mp hev with hevh | hevt
    · subst hevh
      simp only [walkDirectory, hdir, hincl] at h
      simp at h
      exact walkDirectory_acc_sub includeExts excludeExts rest
        (acc ++ [mkRecord f]) l h (mkRecord f) (by simp)
    · cases e with
      | failed p => simp [walkDirectory] at h
      | entry g b =>
        by_cases hd : g.IsDir = true
        · simp only [walkDirectory, hd, if_true] at h
          exact ih acc l f h hevt hdir hincl
        · by_cases hincl2 : fileIncluded includeExts excludeExts (goExt g.Path) = true
          · cases b with
            | true => simp [walkDirectory, hd, hincl2] at h
            | false =>
              simp only [walkDirectory, hd, hincl2] at h
              simp at h
              exact ih (acc ++ [mkRecord g]) l f h hevt hdir hincl
          · simp only [walkDirectory, hd, hincl2] at h
            simp at h
            exact ih acc l f h hevt hdir hincl

/-- Every record of a successful walk comes from the accumulator or from an
included, readable, non-directory entry. -/
theorem walkDirectory_mem_src (includeExts excludeExts : List String) :
    ∀ (events : List VisitEvent) (acc l : List FileInfo) (r : FileInfo),
      walkDirectory includeExts excludeExts acc events = Except.ok l →
      r ∈ l →
      r ∈ acc ∨ ∃ g, VisitEvent.entry g false ∈ events ∧ g.IsDir = false ∧
        fileIncluded includeExts excludeExts (goExt g.Path) = true ∧
        r = mkRecord g := by
  intro events
  induction events with
  | nil =>
    intro acc l r h hr
    simp only [walkDirectory] at h
    cases h
    exact Or.inl hr
  | cons e rest ih =>
    intro acc l r h hr
    cases e with
    | failed p => simp [walkDirectory] at h
    | entry g b =>
      by_cases hd : g.IsDir = true
      · simp only [walkDirectory, hd, if_true] at h
        rcases ih acc l r h hr with hacc | ⟨g2, hg2, hrest⟩
        · exact Or.inl hacc
        · exact Or.inr ⟨g2, List.mem_cons_of_mem _ hg2, hrest⟩
      · by_cases hincl : fileIncluded includeExts excludeExts (goExt g.Path) = true
        · cases b with
          | true => simp [walkDirectory, hd, hincl] at h
          | false =>
            simp only [walkDirectory, hd, hincl] at h
            simp at h
            rcases ih (acc ++ [mkRecord g]) l r h hr with hacc | ⟨g2, hg2, hrest⟩
            · rcases List.mem_append.mp hacc with hacc | hacc
              · exact Or.inl hacc
              · refine Or.inr ⟨g, List.mem_cons_self _ _, ?_, hincl, by simpa using hacc⟩
                simpa using hd
            · exact Or.inr ⟨g2, List.mem_cons_of_mem _ hg2, hrest⟩
        · simp only [walkDirectory, hd, hincl] at h
          simp at h
          rcases ih acc l r h hr with hacc | ⟨g2, hg2, hrest⟩
          · exact Or.inl hacc
          · exact Or.inr ⟨g2, List.mem_cons_of_mem _ hg2, hrest⟩

/-- C1: a non-directory entry visited by a successful walk is in the output
list exactly when the include set is empty or some include entry matches
its extension case-insensitively, and no exclude entry matches it; in
particular any exclude match keeps the record out even when the include
set also matches (exclude wins). -/
theorem walkDirectory_filter (includeExts excludeExts : List String)
    (events : List VisitEvent) (f : FileInfo) (l : List FileInfo)
    (hev : VisitEvent.entry f false ∈ events) (hdir : f.IsDir = false)
    (hok : walkDirectory includeExts excludeExts [] events = Except.ok l) :
    (mkRecord f ∈ l ↔
      ((includeExts = [] ∨ ∃ i ∈ includeExts, goEqualFold (goExt f.Path) i = true) ∧
       ¬ ∃ x ∈ excludeExts, goEqualFold (goExt f.Path) x = true)) ∧
    ((∃ x ∈ excludeExts, goEqualFold (goExt f.Path) x = true) →
      mkRecord f ∉ l) := by
  have hiff : mkRecord f ∈ l ↔
      fileIncluded includeExts excludeExts (goExt f.Path) = true := by
    constructor
    · intro hmem
      rcases walkDirectory_mem_src includeExts excludeExts events [] l (mkRecord f)
          hok hmem with hacc | ⟨g, hgev, hgdir, hginc, hgr⟩
      · simp at hacc
      · have hpath : f.Path = g.Path := by
          have h2 := congrArg FileInfo.Path hgr
          simpa [mkRecord] using h2
        rw [hpath]
        exact hginc
    · intro hincl
      exact walkDirectory_mem includeExts excludeExts events [] l f hok hev hdir hincl
  refine ⟨hiff.trans (fileIncluded_iff includeExts excludeExts (goExt f.Path)), ?_⟩
  intro hex hmem
  exact ((fileIncluded_iff includeExts excludeExts (goExt f.Path)).mp
    (hiff.mp hmem)).2 hex

/-- Witness for the filter theorem at a concrete walk of one go file with
include set .go and exclude set .html. -/
theorem walkDirectory_filter_witness :
    (mkRecord ⟨"d/a.go", false, 3, "hi"⟩ ∈ [mkRecord ⟨"d/a.go", false, 3, "hi"⟩] ↔
      (([".go"] : List String) = [] ∨
        ∃ i ∈ ([".go"] : List String), goEqualFold (goExt ("d/a.go")) i = true) ∧
      ¬ ∃ x ∈ ([".html"] : List String), goEqualFold (goExt ("d/a.go")) x = true) ∧
    ((∃ x ∈ ([".html"] : List String), goEqualFold (goExt ("d/a.go")) x = true) →
      mkRecord ⟨"d/a.go", false, 3, "hi"⟩ ∉ [mkRecord ⟨"d/a.go", false, 3, "hi"⟩]) :=
  walkDirectory_filter [".go"] [".html"]
    [VisitEvent.entry ⟨"d/a.go", false, 3, "hi"⟩ false] ⟨"d/a.go", false, 3, "hi"⟩
    [mkRecord ⟨"d/a.go", false, 3, "hi"⟩] (by decide) rfl rfl

/-- Any offending visit makes the walk return an error whose text contains
the offending path, whatever has been accumulated so far. -/
theorem walkDirectory_error_aux (includeExts excludeExts : List String) :
    ∀ (events : List VisitEvent) (acc : List FileInfo) (p : String),
      firstOffender includeExts excludeExts events = some p →
      ∃ msg, walkDirectory includeExts excludeExts acc events = Except.error msg ∧
        p.data <:+: msg.data := by
  intro events
  induction events with
  | nil =>
    intro acc p h
    simp [firstOffender] at h
  | cons e rest ih =>
    intro acc p h
    cases e with
    | failed q =>
      simp only [firstOffender] at h
      have hp := Option.some.inj h
      subst hp
      exact ⟨q, rfl, List.infix_refl q.data⟩
    | entry g b =>
      by_cases hc :
          (!g.IsDir && fileIncluded includeExts excludeExts (goExt g.Path) && b) = true
      · simp only [firstOffender, hc, if_true] at h
        have hp := Option.some.inj h
        subst hp
        simp only [Bool.and_eq_true] at hc
        obtain ⟨⟨hg, hincl⟩, hb⟩ := hc
        have hdir : g.IsDir = false := by simpa using hg
        subst hb
        refine ⟨readErrMsg g.Path, ?_, ?_⟩
        · simp [walkDirectory, hdir, hincl]
        · refine ⟨("unable to read file " : String).data, [], ?_⟩
          simp [readErrMsg, strData_append]
      · simp only [firstOffender, hc, if_false] at h
        by_cases hd : g.IsDir = true
        · obtain ⟨msg, hmsg, hinf⟩ := ih acc p h
          exact ⟨msg, by simp [walkDirectory, hd, hmsg], hinf⟩
        · by_cases hincl : fileIncluded includeExts excludeExts (goExt g.Path) = true
          · cases b with
            | true =>
              exfalso
              apply hc
              simp [hincl]
              simpa using hd
            | false =>
              obtain ⟨msg, hmsg, hinf⟩ := ih (acc ++ [mkRecord g]) p h
              exact ⟨msg, by simp [walkDirectory, hd, hincl, hmsg], hinf⟩
          · obtain ⟨msg, hmsg, hinf⟩ := ih acc p h
            exact ⟨msg, by simp [walkDirectory, hd, hincl, hmsg], hinf⟩

/-- C9: when any visit fails, or the content read of any included file
fails, the whole walk returns an error whose text contains the first
offending path, and no file list at all is produced (fail-fast, no
partial-result continuation). -/
theorem walkDirectory_failfast (includeExts excludeExts : List String)
    (events : List VisitEvent) (p : String)
    (h : firstOffender includeExts excludeExts events = some p) :
    (∃ msg, walkDirectory includeExts excludeExts [] events = Except.error msg ∧
      p.data <:+: msg.data) ∧
    ∀ l, walkDirectory includeExts excludeExts [] events ≠ Except.ok l := by
  obtain ⟨msg, hmsg, hinf⟩ :=
    walkDirectory_error_aux includeExts excludeExts events [] p h
  refine ⟨⟨msg, hmsg, hinf⟩, ?_⟩
  intro l hcon
  rw [hmsg] at hcon
  exact Except.noConfusion hcon

/-- Witness for the fail-fast theorem at a concrete walk whose first visit
fails. -/
theorem walkDirectory_failfast_witness :
    (∃ msg, walkDirectory [] [] [] [VisitEvent.failed ("/r/bad")] = Except.error msg ∧
      ("/r/bad" : String).data <:+: msg.data) ∧
    ∀ l, walkDirectory [] [] [] [VisitEvent.failed ("/r/bad")] ≠ Except.ok l :=
  walkDirectory_failfast [] [] [VisitEvent.failed ("/r/bad")] ("/r/bad") rfl

/-- Head characterization of the lexicographic comparison. -/
theorem charListLe_cons (a b : Char) (as bs : List Char) :
    charListLe (a :: as) (b :: bs) = true ↔
      (a < b ∨ (a = b ∧ charListLe as bs = true)) := by
  by_cases hab : a < b
  · simp [charListLe, hab]
  · by_cases hba : b < a
    · have hne : ¬ a = b := fun he => absurd (he ▸ hba) (lt_irrefl a)
      simp [charListLe, hab, hba, hne]
    · have heq : a = b := le_antisymm (not_lt.mp hba) (not_lt.mp hab)
      simp [charListLe, hab, hba, heq]

/-- The lexicographic comparison is total. -/
theorem charListLe_total : ∀ a b : List Char,
    charListLe a b = true ∨ charListLe b a = true
  | [], _ => Or.inl rfl
  | _ :: _, [] => Or.inr rfl
  | a :: as, b :: bs => by
    rcases lt_trichotomy a b with h | h | h
    · exact Or.inl ((charListLe_cons a b as bs).mpr (Or.inl h))
    · rcases charListLe_total as bs with h2 | h2
      · exact Or.inl ((charListLe_cons a b as bs).mpr (Or.inr ⟨h, h2⟩))
      · exact Or.inr ((charListLe_cons b a bs as).mpr (Or.inr ⟨h.symm, h2⟩))
    · exact Or.inr ((charListLe_cons b a bs as).mpr (Or.inl h))

/-- The lexicographic comparison is transitive. -/
theorem charListLe_trans : ∀ a b c : List Char, charListLe a b = true →
    charListLe b c = true → charListLe a c = true
  | [], _, _, _, _ => rfl
  | _ :: _, [], _, h, _ => by simp [charListLe] at h
  | _ :: _, _ :: _, [], _, h2 => by simp [charListLe] at h2
  | a :: as, b :: bs, c :: cs, h1, h2 => by
    rcases (charListLe_cons a b as bs).mp h1 with h1a | ⟨he1, h1b⟩
    · rcases (charListLe_cons b c bs cs).mp h2 with h2a | ⟨he2, h2b⟩
      · exact (charListLe_cons a c as cs).mpr (Or.inl (lt_trans h1a h2a))
      · exact (charListLe_cons a c as cs).mpr (Or.inl (he2 ▸ h1a))
    · rcases (charListLe_cons b c bs cs).mp h2 with h2a | ⟨he2, h2b⟩
      · exact (charListLe_cons a c as cs).mpr (Or.inl (by rw [he1]; exact h2a))
      · exact (charListLe_cons a c as cs).mpr
          (Or.inr ⟨he1.trans he2, charListLe_trans as bs cs h1b h2b⟩)

/-- The lexicographic comparison is antisymmetric. -/
theorem charListLe_antisymm : ∀ a b : List Char, charListLe a b = true →
    charListLe b a = true → a = b
  | [], [], _, _ => rfl
  | [], _ :: _, _, h2 => by simp [charListLe] at h2
  | _ :: _, [], h1, _ => by simp [charListLe] at h1
  | a :: as, b :: bs, h1, h2 => by
    rcases (charListLe_cons a b as bs).mp h1 with h1a | ⟨he1, h1b⟩
    · rcases (charListLe_cons b a bs as).mp h2 with h2a | ⟨he2, h2b⟩
      · exact absurd h2a (lt_asymm h1a)
      · exfalso
        rw [he2] at h1a
        exact lt_irrefl a h1a
    · subst he1
      rcases (charListLe_cons a a bs as).mp h2 with h2a | ⟨-, h2b⟩
      · exact absurd h2a (lt_irrefl a)
      · rw [charListLe_antisymm as bs h1b h2b]

/-- Antisymmetry of the path order on strings, for sorted-list equality. -/
instance : IsAntisymm String (fun a b : String => charListLe a.data b.data = true) :=
  ⟨fun a b h1 h2 => String.ext (charListLe_antisymm a.data b.data h1 h2)⟩

/-- Inserting a record permutes consing it. -/
theorem insertByPath_perm (f : FileInfo) (l : List FileInfo) :
    (insertByPath f l).Perm (f :: l) := by
  induction l with
  | nil => exact List.Perm.refl [f]
  | cons g gs ih =>
    by_cases h : charListLe f.Path.data g.Path.data = true
    · rw [insertByPath, if_pos h]
    · rw [insertByPath, if_neg h]
      exact (ih.cons g).trans (List.Perm.swap f g gs)

/-- The model sort is a permutation of its input. -/
theorem sortFiles_perm (l : List FileInfo) : (sortFiles l).Perm l := by
  induction l with
  | nil => exact List.Perm.refl []
  | cons f fs ih => exact (insertByPath_perm f (sortFiles fs)).trans (ih.cons f)

/-- Inserting into a path-sorted list keeps it path-sorted. -/
theorem insertByPath_pairwise (f : FileInfo) (l : List FileInfo)
    (h : List.Pairwise (fun a b : FileInfo => charListLe a.Path.data b.Path.data = true) l) :
    List.Pairwise (fun a b : FileInfo => charListLe a.Path.data b.Path.data = true)
      (insertByPath f l) := by
  induction l with
  | nil => exact List.pairwise_singleton _ f
  | cons g gs ih =>
    rcases List.pairwise_cons.mp h with ⟨hg, hgs⟩
    by_cases hle : charListLe f.Path.data g.Path.data = true
    · rw [insertByPath, if_pos hle]
      refine List.pairwise_cons.mpr ⟨?_, h⟩
      intro x hx
      rcases List.mem_cons.mp hx with hx | hx
      · rw [hx]
        exact hle
      · exact charListLe_trans _ _ _ hle (hg x hx)
    · rw [insertByPath, if_neg hle]
      refine List.pairwise_cons.mpr ⟨?_, ih hgs⟩
      intro x hx
      have hx2 := (insertByPath_perm f gs).mem_iff.mp hx
      rcases List.mem_cons.mp hx2 with hx3 | hx3
      · rw [hx3]
        rcases charListLe_total f.Path.data g.Path.data with ht | ht
        · exact absurd ht hle
        · exact ht
      · exact hg x hx3

/-- The model sort is path-sorted. -/
theorem sortFiles_pairwise (l : List FileInfo) :
    List.Pairwise (fun a b : FileInfo => charListLe a.Path.data b.Path.data = true)
      (sortFiles l) := by
  induction l with
  | nil => exact List.Pairwise.nil
  | cons f fs ih => exact insertByPath_pairwise f (sortFiles fs) ih

/-- Two walks that permute each other sort to the same path sequence. -/
theorem sortFiles_paths_eq (l1 l2 : List FileInfo) (h : l1.Perm l2) :
    (sortFiles l1).map (fun f => f.Path) = (sortFiles l2).map (fun f => f.Path) := by
  have hs1 : List.Sorted (fun a b : String => charListLe a.data b.data = true)
      ((sortFiles l1).map (fun f => f.Path)) :=
    (List.pairwise_map).mpr (sortFiles_pairwise l1)
  have hs2 : List.Sorted (fun a b : String => charListLe a.data b.data = true)
      ((sortFiles l2).map (fun f => f.Path)) :=
    (List.pairwise_map).mpr (sortFiles_pairwise l2)
  have hp : ((sortFiles l1).map (fun f => f.Path)).Perm
      ((sortFiles l2).map (fun f => f.Path)) :=
    ((sortFiles_perm l1).map _).trans ((h.map _).trans ((sortFiles_perm l2).map _).symm)
  exact List.eq_of_perm_of_sorted hp hs1 hs2

/-- Full invariant of the per-file component loop: the seen set grows by
exactly the directory paths emitted, an emitted directory path is exactly a
cumulative prefix not seen before, the seen set stays duplicate-free, and
exactly one file entry is emitted per nonempty component list. -/
theorem emitComps_spec : ∀ (comps : List String) (seen pre : List String),
    (emitComps seen pre comps).1 = seen ++ dirPathsOf (emitComps seen pre comps).2 ∧
    (∀ p, p ∈ dirPathsOf (emitComps seen pre comps).2 ↔
      (p ∈ cumDirs pre comps ∧ p ∉ seen)) ∧
    (seen.Nodup → (emitComps seen pre comps).1.Nodup) ∧
    ((emitComps seen pre comps).2.filter (fun e => !e.isDir)).length =
      (if comps.isEmpty then 0 else 1) := by
  intro comps
  induction comps with
  | nil =>
    intro seen pre
    simp [emitComps, dirPathsOf, cumDirs]
  | cons c rest ih =>
    intro seen pre
    by_cases hrest : rest.isEmpty = true
    · have hr : rest = [] := List.isEmpty_iff.mp hrest
      subst hr
      simp [emitComps, dirPathsOf, cumDirs]
    · have hrf : rest.isEmpty = false := by simpa using hrest
      have hcum : cumDirs pre (c :: rest) =
          sepJoin slashStr (pre ++ [c]) :: cumDirs (pre ++ [c]) rest := by
        simp [cumDirs, hrf]
      by_cases hseen : seen.contains (sepJoin slashStr (pre ++ [c])) = true
      · have hmem : sepJoin slashStr (pre ++ [c]) ∈ seen := by simpa using hseen
        have heq : emitComps seen pre (c :: rest) =
            emitComps seen (pre ++ [c]) rest := by
          simp [emitComps, hrf, hseen]
          intro hx
          exact absurd hmem hx
        rw [heq]
        obtain ⟨ih1, ih2, ih3, ih4⟩ := ih seen (pre ++ [c])
        refine ⟨ih1, ?_, ih3, ?_⟩
        · intro p
          rw [ih2 p, hcum]
          constructor
          · rintro ⟨hp1, hp2⟩
            exact ⟨List.mem_cons_of_mem _ hp1, hp2⟩
          · rintro ⟨hp1, hp2⟩
            rcases List.mem_cons.mp hp1 with hp1 | hp1
            · exact absurd (show p ∈ seen by rw [hp1]; exact hmem) hp2
            · exact ⟨hp1, hp2⟩
        · rw [ih4]
          simp [hrf]
      · have hnmem : sepJoin slashStr (pre ++ [c]) ∉ seen := by
          intro hc2
          exact hseen (by simpa using hc2)
        have heq : emitComps seen pre (c :: rest) =
            ((emitComps (seen ++ [sepJoin slashStr (pre ++ [c])]) (pre ++ [c]) rest).1,
             (⟨true, sepJoin slashStr (pre ++ [c]), pre.length, c⟩ : TreeEntry) ::
               (emitComps (seen ++ [sepJoin slashStr (pre ++ [c])]) (pre ++ [c]) rest).2) := by
          simp [emitComps, hrf, hseen]
          intro hx
          exact absurd hx hnmem
        rw [heq]
        obtain ⟨ih1, ih2, ih3, ih4⟩ := ih (seen ++ [sepJoin slashStr (pre ++ [c])]) (pre ++ [c])
        have hd : dirPathsOf
            ((⟨true, sepJoin slashStr (pre ++ [c]), pre.length, c⟩ : TreeEntry) ::
              (emitComps (seen ++ [sepJoin slashStr (pre ++ [c])]) (pre ++ [c]) rest).2) =
            sepJoin slashStr (pre ++ [c]) ::
              dirPathsOf (emitComps (seen ++ [sepJoin slashStr (pre ++ [c])])
                (pre ++ [c]) rest).2 := by
          simp [dirPathsOf]
        refine ⟨?_, ?_, ?_, ?_⟩
        · rw [hd, ih1]
          simp
        · intro p
          rw [hd, hcum]
          constructor
          · intro hp
            rcases List.mem_cons.mp hp with hp | hp
            · rw [hp]
              exact ⟨List.mem_cons_self _ _, hnmem⟩
            · obtain ⟨hp1, hp2⟩ := (ih2 p).mp hp
              have hns : p ∉ seen := fun hc2 => hp2 (List.mem_append.mpr (Or.inl hc2))
              exact ⟨List.mem_cons_of_mem _ hp1, hns⟩
          · rintro ⟨hp1, hp2⟩
            rcases List.mem_cons.mp hp1 with hp1 | hp1
            · exact List.mem_cons.mpr (Or.inl hp1)
            · by_cases hpc : p = sepJoin slashStr (pre ++ [c])
              · exact List.mem_cons.mpr (Or.inl hpc)
              · refine List.mem_cons.mpr (Or.inr ((ih2 p).mpr ⟨hp1, ?_⟩))
                intro hc2
                rcases List.mem_append.mp hc2 with hc2 | hc2
                · exact hp2 hc2
                · exact hpc (by simpa using hc2)
        · intro hnd
          apply ih3
          refine List.Nodup.append hnd (List.nodup_singleton _) ?_
          intro a ha1 ha2
          have : a = sepJoin slashStr (pre ++ [c]) := by simpa using ha2
          rw [this] at ha1
          exact hnmem ha1
        · have hfil : List.filter (fun e => !e.isDir)
              ((⟨true, sepJoin slashStr (pre ++ [c]), pre.length, c⟩ : TreeEntry) ::
                (emitComps (seen ++ [sepJoin slashStr (pre ++ [c])]) (pre ++ [c]) rest).2) =
              List.filter (fun e => !e.isDir)
                (emitComps (seen ++ [sepJoin slashStr (pre ++ [c])]) (pre ++ [c]) rest).2 := by
            simp [List.filter_cons]
          rw [hfil, ih4]
          simp [hrf]

/-- Splitting never yields an empty list of components. -/
theorem splitSlash_ne_nil (l : List Char) : splitSlash l ≠ [] := by
  cases l with
  | nil => simp [splitSlash]
  | cons c cs =>
    simp only [splitSlash]
    cases h : splitSlash cs with
    | nil => simp
    | cons a t =>
      by_cases hc : c = slashCh <;> simp [hc]

/-- The component list of a path is never empty. -/
theorem relComps_ne_nil (rp p : String) : relComps rp p ≠ [] := by
  intro hc
  simp only [relComps] at hc
  rcases h : splitSlash (goRel rp p).data with _ | ⟨a, t⟩
  · exact splitSlash_ne_nil _ h
  · rw [h] at hc
    simp at hc

/-- Full invariant of the per-file loop over the whole path list. -/
theorem emitFiles_spec (rp : String) : ∀ (paths seen : List String),
    (emitFiles rp seen paths).1 = seen ++ dirPathsOf (emitFiles rp seen paths).2 ∧
    (∀ p, p ∈ dirPathsOf (emitFiles rp seen paths).2 ↔
      ((∃ q ∈ paths, p ∈ cumDirs [] (relComps rp q)) ∧ p ∉ seen)) ∧
    (seen.Nodup → (emitFiles rp seen paths).1.Nodup) ∧
    ((emitFiles rp seen paths).2.filter (fun e => !e.isDir)).length = paths.length := by
  intro paths
  induction paths with
  | nil =>
    intro seen
    simp [emitFiles, dirPathsOf]
  | cons q ps ih =>
    intro seen
    obtain ⟨c1, c2, c3, c4⟩ := emitComps_spec (relComps rp q) seen []
    obtain ⟨ih1, ih2, ih3, ih4⟩ := ih (emitComps seen [] (relComps rp q)).1
    have heq : emitFiles rp seen (q :: ps) =
        ((emitFiles rp (emitComps seen [] (relComps rp q)).1 ps).1,
         (emitComps seen [] (relComps rp q)).2 ++
           (emitFiles rp (emitComps seen [] (relComps rp q)).1 ps).2) := by
      simp [emitFiles]
    rw [heq]
    have hdsplit : dirPathsOf ((emitComps seen [] (relComps rp q)).2 ++
        (emitFiles rp (emitComps seen [] (relComps rp q)).1 ps).2) =
        dirPathsOf (emitComps seen [] (relComps rp q)).2 ++
          dirPathsOf (emitFiles rp (emitComps seen [] (relComps rp q)).1 ps).2 := by
      simp [dirPathsOf, List.filter_append]
    refine ⟨?_, ?_, ?_, ?_⟩
    · rw [hdsplit, ih1, c1]
      simp
    · intro p
      rw [hdsplit, List.mem_append, c2 p, ih2 p]
      constructor
      · rintro (⟨hp1, hp2⟩ | ⟨hp1, hp2⟩)
        · exact ⟨⟨q, List.mem_cons_self _ _, hp1⟩, hp2⟩
        · have hns : p ∉ seen := by
            intro hc2
            exact hp2 (by rw [c1]; exact List.mem_append.mpr (Or.inl hc2))
          obtain ⟨q2, hq2, hp3⟩ := hp1
          exact ⟨⟨q2, List.mem_cons_of_mem _ hq2, hp3⟩, hns⟩
      · rintro ⟨⟨q2, hq2, hp3⟩, hns⟩
        rcases List.mem_cons.mp hq2 with hq2 | hq2
        · left
          rw [← hq2]
          exact ⟨hp3, hns⟩
        · by_cases hin : p ∈ dirPathsOf (emitComps seen [] (relComps rp q)).2
          · exact Or.inl ((c2 p).mp hin)
          · refine Or.inr ⟨⟨q2, hq2, hp3⟩, ?_⟩
            rw [c1]
            intro hc2
            rcases List.mem_append.mp hc2 with hc2 | hc2
            · exact hns hc2
            · exact hin hc2
    · intro hnd
      exact ih3 (c3 hnd)
    · rw [List.filter_append, List.length_append, c4, ih4]
      have h5 : (relComps rp q).isEmpty = false := by
        cases h : relComps rp q with
        | nil => exact absurd h (relComps_ne_nil rp q)
        | cons a t => simp
      simp [h5, Nat.add_comm]

/-- C3: the rendered tree emits exactly one directory line per distinct
cumulative directory prefix of the files (a prefix once emitted is never
emitted again), exactly one file line per record, and any two permutations
of the same record list produce byte-identical structure text. -/
theorem generateStructureFile_lines (cwd rootDir : String)
    (files1 files2 : List FileInfo) (h : files1.Perm files2) :
    structureText cwd rootDir files1 = structureText cwd rootDir files2 ∧
    (dirPathsOf (structureEntries cwd rootDir files1)).Nodup ∧
    (∀ p, p ∈ dirPathsOf (structureEntries cwd rootDir files1) ↔
      ∃ f ∈ files1, p ∈ cumDirs [] (relComps (rootOf cwd rootDir) f.Path)) ∧
    ((structureEntries cwd rootDir files1).filter (fun e => !e.isDir)).length =
      files1.length := by
  obtain ⟨e1, e2, e3, e4⟩ := emitFiles_spec (rootOf cwd rootDir)
    ((sortFiles files1).map (fun f => f.Path)) []
  have hents : structureEntries cwd rootDir files1 =
      (emitFiles (rootOf cwd rootDir) []
        ((sortFiles files1).map (fun f => f.Path))).2 := rfl
  refine ⟨?_, ?_, ?_, ?_⟩
  · have hp := sortFiles_paths_eq files1 files2 h
    simp only [structureText, structureLines, generateStructureFile]
    rw [hp]
  · have hn : (emitFiles (rootOf cwd rootDir) []
        ((sortFiles files1).map (fun f => f.Path))).1.Nodup := e3 List.nodup_nil
    have hid : dirPathsOf (emitFiles (rootOf cwd rootDir) []
        ((sortFiles files1).map (fun f => f.Path))).2 =
        (emitFiles (rootOf cwd rootDir) []
          ((sortFiles files1).map (fun f => f.Path))).1 := by
      rw [e1]
      simp
    rw [hents, hid]
    exact hn
  · intro p
    rw [hents, e2 p]
    constructor
    · rintro ⟨⟨q, hq, hpq⟩, -⟩
      rcases List.mem_map.mp hq with ⟨f, hf, hfq⟩
      refine ⟨f, (sortFiles_perm files1).mem_iff.mp hf, ?_⟩
      rw [hfq]
      exact hpq
    · rintro ⟨f, hf, hpf⟩
      exact ⟨⟨f.Path, List.mem_map.mpr
        ⟨f, (sortFiles_perm files1).mem_iff.mpr hf, rfl⟩, hpf⟩, List.not_mem_nil p⟩
  · rw [hents, e4, List.length_map]
    exact (sortFiles_perm files1).length_eq

/-- Witness for the tree theorem at two orderings of the same two files. -/
theorem generateStructureFile_lines_witness :
    structureText ("/w") ("r")
        [⟨"r/b.md", false, 2, ""⟩, ⟨"r/a/x.go", false, 1, ""⟩] =
      structureText ("/w") ("r")
        [⟨"r/a/x.go", false, 1, ""⟩, ⟨"r/b.md", false, 2, ""⟩] ∧
    (dirPathsOf (structureEntries ("/w") ("r")
      [⟨"r/b.md", false, 2, ""⟩, ⟨"r/a/x.go", false, 1, ""⟩])).Nodup ∧
    (∀ p, p ∈ dirPathsOf (structureEntries ("/w") ("r")
        [⟨"r/b.md", false, 2, ""⟩, ⟨"r/a/x.go", false, 1, ""⟩]) ↔
      ∃ f ∈ [(⟨"r/b.md", false, 2, ""⟩ : FileInfo), ⟨"r/a/x.go", false, 1, ""⟩],
        p ∈ cumDirs [] (relComps (rootOf ("/w") ("r")) f.Path)) ∧
    ((structureEntries ("/w") ("r")
        [⟨"r/b.md", false, 2, ""⟩, ⟨"r/a/x.go", false, 1, ""⟩]).filter
          (fun e => !e.isDir)).length =
      ([(⟨"r/b.md", false, 2, ""⟩ : FileInfo), ⟨"r/a/x.go", false, 1, ""⟩]).length :=
  generateStructureFile_lines ("/w") ("r")
    [⟨"r/b.md", false, 2, ""⟩, ⟨"r/a/x.go", false, 1, ""⟩]
    [⟨"r/a/x.go", false, 1, ""⟩, ⟨"r/b.md", false, 2, ""⟩]
    (List.Perm.swap (⟨"r/a/x.go", false, 1, ""⟩ : FileInfo) (⟨"r/b.md", false, 2, ""⟩ : FileInfo) [])

/-- C10: the structure stage returns the record list re-sorted in place by
ascending path (a permutation of what the caller passed in), and the
pipeline feeds exactly that reordered list to the content stage, so the
content file lists records in sorted-path order rather than walk order. -/
theorem generateStructureFile_sorts_in_place (cwd rootDir : String)
    (files : List FileInfo) :
    ((generateStructureFile cwd rootDir files).2).Perm files ∧
    List.Pairwise (fun a b : FileInfo => charListLe a.Path.data b.Path.data = true)
      ((generateStructureFile cwd rootDir files).2) ∧
    (mainPipeline cwd rootDir files).2.1 =
      (generateContentFile (generateStructureFile cwd rootDir files).2).1 := by
  refine ⟨?_, ?_, rfl⟩
  · exact sortFiles_perm files
  · exact sortFiles_pairwise files

/-- The third line of a one-file render starts with four spaces before the
branch glyph, not with the bare branch glyph. -/
theorem structure_indentation_counterexample :
    structureLines ("/w") ("r") [⟨"r/a.go", false, 0, ""⟩] =
      ["Directory structure:", "└── r/", "    ├── a.go"] ∧
    ("    ├── a.go" : String) ≠ ("├── a.go" : String) := by
  constructor
  · rfl
  · decide

/-- C7 (amended): the structure file is exactly the title line, then the
root line with the base name of the root and a slash, then one line per
emitted node in emission order, each the four spaces, the vertical-bar
prefix repeated once per that node's depth, the branch glyph, that node's
own component name, and a slash exactly on directory nodes. -/
theorem generateStructureFile_format (cwd rootDir : String)
    (files : List FileInfo) :
    structureLines cwd rootDir files =
      "Directory structure:" ::
        ("└── " ++ goBase (rootOf cwd rootDir) ++ slashStr) ::
        (structureEntries cwd rootDir files).map
          (fun e => "    " ++ repeatStr "│   " e.depth ++ "├── " ++ e.name ++
            (if e.isDir then slashStr else "")) := rfl
